import Mathlib

/-!
Verification development for the nikobusconnect protocol engine.

The definitions below are a shallow embedding of the Python sources:
  nikobusconnect/protocol.py        (hex codec, CRC-16, CRC-8, command assembly)
  nikobusconnect/listener.py        (frame extraction, dispatch, CRC validation)
  nikobusconnect/command_handler.py (correlated send with retries)
  nikobusconnect/command.py         (module state cache)
Strings are modelled as `List Char`; machine integers as `Nat`/`Int` with
explicit masking where the Python code masks.
-/

/-! ## Python string primitives used by the sources -/

/-- Characters treated as whitespace by Python `str.strip` / `int(s, 16)`
stripping, for every character in the Latin-1 range and in the image of
Windows-1252 decoding (the only characters the listener can produce).
Exotic code points outside that range are not reachable in this program. -/
def pyIsWs (c : Char) : Bool :=
  c.toNat = 9 || c.toNat = 10 || c.toNat = 11 || c.toNat = 12 || c.toNat = 13 ||
  c.toNat = 28 || c.toNat = 29 || c.toNat = 30 || c.toNat = 31 || c.toNat = 32 ||
  c.toNat = 0x85 || c.toNat = 0xA0

/-- Python `s.strip()`: remove leading and trailing whitespace. -/
def pyStrip (l : List Char) : List Char :=
  ((l.dropWhile pyIsWs).reverse.dropWhile pyIsWs).reverse

/-- Is `c` an ASCII hexadecimal digit (`0`-`9`, `a`-`f`, `A`-`F`, by code
point ranges 48-57, 97-102, 65-70). -/
def isHexDigitChar (c : Char) : Bool :=
  (48 ≤ c.toNat && c.toNat ≤ 57) || (97 ≤ c.toNat && c.toNat ≤ 102) ||
  (65 ≤ c.toNat && c.toNat ≤ 70)

/-- Value of an ASCII hexadecimal digit (0 for other characters; callers
check `isHexDigitChar` first). -/
def hexDigitVal (c : Char) : Nat :=
  if 48 ≤ c.toNat && c.toNat ≤ 57 then c.toNat - 48
  else if 97 ≤ c.toNat && c.toNat ≤ 102 then c.toNat - 87
  else if 65 ≤ c.toNat && c.toNat ≤ 70 then c.toNat - 55
  else 0

/-- Big-endian value of a list of hex digits. -/
def hexListVal (l : List Char) : Nat :=
  l.foldl (fun acc c => 16 * acc + hexDigitVal c) 0

/-- Python `int(s, 16)`: strip whitespace, optional single sign, then a
nonempty run of hex digits; `none` models the `ValueError` raise.  The
`0x` prefix and underscore forms need at least three characters, so they
cannot occur on the two-character slices this program parses; they are
therefore not modelled. -/
def pyIntHex (s : List Char) : Option Int :=
  let t := pyStrip s
  match t with
  | [] => none
  | c :: rest =>
    if c = '+' then
      if rest ≠ [] && rest.all isHexDigitChar then some (hexListVal rest) else none
    else if c = '-' then
      if rest ≠ [] && rest.all isHexDigitChar then some (-(hexListVal rest : Int)) else none
    else
      if t.all isHexDigitChar then some (hexListVal t) else none

/-! ## protocol.py: hex formatting and CRCs -/

/-- Uppercase hex digit character for a value below 16. -/
def hexDigitChar (n : Nat) : Char :=
  if n = 0 then '0' else if n = 1 then '1' else if n = 2 then '2'
  else if n = 3 then '3' else if n = 4 then '4' else if n = 5 then '5'
  else if n = 6 then '6' else if n = 7 then '7' else if n = 8 then '8'
  else if n = 9 then '9' else if n = 10 then 'A' else if n = 11 then 'B'
  else if n = 12 then 'C' else if n = 13 then 'D' else if n = 14 then 'E'
  else 'F'

/-- Hex digits of `n`, least significant first (empty for 0); the fuel
argument only bounds the recursion depth (`n` itself always suffices). -/
def natToHexRevAux : Nat → Nat → List Char
  | 0, _ => []
  | fuel + 1, n =>
    if n = 0 then [] else hexDigitChar (n % 16) :: natToHexRevAux fuel (n / 16)

/-- Hex digits of `n`, least significant first (empty for 0). -/
def natToHexRev (n : Nat) : List Char :=
  natToHexRevAux n n

/-- Minimal-width uppercase hex representation of `n`, as Python
`'{:X}'.format(n)` produces. -/
def natToHex (n : Nat) : List Char :=
  if n = 0 then ['0'] else (natToHexRev n).reverse

/-- `int_to_hex(value, digits)` from protocol.py: Python
`('{:0' + str(digits) + 'X}').format(value)` for a nonnegative value.
Zero-pads to `digits` characters; values too wide are NOT truncated and
NOT rejected, the result is simply wider than `digits`. -/
def int_to_hex (value : Nat) (digits : Nat) : List Char :=
  List.replicate (digits - (natToHex value).length) '0' ++ natToHex value

/-- One shift-and-xor round of `calc_crc1` (polynomial 0x1021), including
the trailing `crc &= 0xFFFF`. -/
def crc1Round (crc : Nat) : Nat :=
  if crc &&& 0x8000 ≠ 0 then ((crc <<< 1) ^^^ 0x1021) &&& 0xFFFF
  else (crc <<< 1) &&& 0xFFFF

/-- `calc_crc1` body over the byte values parsed from the hex string:
`crc ^= byte << 8` then eight rounds. -/
def crc1Bytes (bytes : List Nat) : Nat :=
  bytes.foldl (fun crc b => crc1Round^[8] (crc ^^^ (b <<< 8))) 0xFFFF

/-- Parse consecutive hex-digit pairs, as the loop
`int(data[j*2:(j+1)*2], 16)` for `j < len(data)//2` does; `none` models a
`ValueError` on a non-hex pair.  A trailing odd character is ignored,
exactly as the `len(data) // 2` bound ignores it. -/
def hexPairs : List Char → Option (List Nat)
  | c1 :: c2 :: rest =>
    if isHexDigitChar c1 && isHexDigitChar c2 then
      (hexPairs rest).map (fun l => (16 * hexDigitVal c1 + hexDigitVal c2) :: l)
    else none
  | _ => some []

/-- `calc_crc1(data)` from protocol.py: CRC-16 over the byte pairs of a
hex string (`none` when a pair does not parse, modelling the raise). -/
def calc_crc1 (data : List Char) : Option Nat :=
  (hexPairs data).map crc1Bytes

/-- One shift-and-xor round of `calc_crc2` (polynomial 0x99), including
the trailing `crc &= 0xFF`. -/
def crc2Round (crc : Nat) : Nat :=
  if crc &&& 0x80 ≠ 0 then ((crc <<< 1) ^^^ 0x99) &&& 0xFF
  else (crc <<< 1) &&& 0xFF

/-- `calc_crc2(data)` from protocol.py: for each character,
`crc ^= ord(char)` then eight rounds. -/
def calc_crc2 (data : List Char) : Nat :=
  data.foldl (fun crc c => crc2Round^[8] (crc ^^^ c.toNat)) 0

/-- `append_crc1(data)` from protocol.py. -/
def append_crc1 (data : List Char) : Option (List Char) :=
  (calc_crc1 data).map (fun crc => data ++ int_to_hex crc 4)

/-- `append_crc2(data)` from protocol.py. -/
def append_crc2 (data : List Char) : List Char :=
  data ++ int_to_hex (calc_crc2 data) 2

/-- `make_pc_link_command(func, addr, args)` from protocol.py.  `addrVal`
stands for `int(addr, 16)` already parsed (address parsing is not at issue
in any claim); `args` is the optional byte string.  Faithful steps:
function code and the two little-endian address bytes as hex, optional
`args.hex().upper()` (two uppercase digits per byte), CRC-16 appended,
length field `len(data_with_crc1)//2 + 1` prepended, `$` prefixed, and
CRC-8 appended over the full `$`-prefixed command. -/
def make_pc_link_command (func : Nat) (addrVal : Nat) (args : Option (List Nat)) :
    Option (List Char) :=
  let data :=
    int_to_hex func 2 ++
    int_to_hex ((addrVal >>> 0) &&& 0xFF) 2 ++
    int_to_hex ((addrVal >>> 8) &&& 0xFF) 2 ++
    (match args with
     | some bs => bs.flatMap (fun b => int_to_hex b 2)
     | none => [])
  (append_crc1 data).map (fun data_with_crc1 =>
    let command_length := int_to_hex (data_with_crc1.length / 2 + 1) 2
    let full_command := '$' :: (command_length ++ data_with_crc1)
    append_crc2 full_command)

/-! ## listener.py: validate_crc -/

/-- The non-recursive part of `validate_crc` (everything after the
concatenated-frame recursion guard).  The `try`/`except` is modelled by
the `Option` of the length-field parse: the only raising operation in the
`try` block is `int(total_len_hex, 16)`, so a failed parse yields `false`
(never an exception).  Python `.upper()` is modelled by ASCII
`Char.toUpper`; for the equality test against a string of uppercase hex
digits this is observationally equal to full Unicode uppercasing, because
no character outside `a-f`/`A-F`/`0-9` uppercases to an ASCII hex digit. -/
def validateCore (message : List Char) : Bool :=
  if message.length = 5 && ['$', '0', '5'].isPrefixOf message then true
  else
    match pyIntHex ((message.drop 1).take 2) with
    | none => false
    | some expected_total =>
      if (message.length : Int) ≠ expected_total - 1 then false
      else
        let payload_with_crc16 := message.take (message.length - 2)
        let expected_crc8 := message.drop (message.length - 2)
        (int_to_hex (calc_crc2 payload_with_crc16) 2).map Char.toUpper =
          expected_crc8.map Char.toUpper

/-- The index Python `message[message.find("$", 1):]` drops to: position
of the first `$` at index 1 or later, with `find`'s -1 (absent) making the
slice start at the final character, modelled faithfully although it is
unreachable when more than one `$` is present. -/
def secondDollarPos (message : List Char) : Nat :=
  if '$' ∈ message.drop 1 then 1 + (message.drop 1).indexOf '$'
  else message.length - 1

/-- `validate_crc` recursion with an explicit fuel bounding the recursion
depth; the message length always suffices, since each recursion step
drops at least one character. -/
def validateCrcAux : Nat → List Char → Bool
  | 0, message => validateCore message
  | fuel + 1, message =>
    if message.count '$' > 1 then
      validateCrcAux fuel (message.drop (secondDollarPos message))
    else validateCore message

/-- `validate_crc(message)` from listener.py, including the defensive
recursion for messages holding more than one `$`. -/
def validate_crc (message : List Char) : Bool :=
  validateCrcAux message.length message

/-! ## listener.py: frame extraction -/

/-- The per-character normalisation of `_extract_frames`:
`raw.replace("\x02", "").replace("\x03", "").replace("\n", "\r")`. -/
def cleanChar (c : Char) : Option Char :=
  if c.toNat = 2 then none
  else if c.toNat = 3 then none
  else if c = '\n' then some '\r'
  else some c

/-- Normalised text of one raw read. -/
def cleanRaw (raw : List Char) : List Char :=
  raw.filterMap cleanChar

/-- Python `s.split(sep)` for a one-character separator: empty parts are
kept and the result is never empty. -/
def pySplit (sep : Char) : List Char → List (List Char)
  | [] => [[]]
  | c :: rest =>
    if c = sep then [] :: pySplit sep rest
    else
      match pySplit sep rest with
      | [] => [[c]]
      | h :: t => (c :: h) :: t

/-- Python `re.split(r'(?=\x24)', p)` (split immediately before each
dollar sign, keeping the dollar with its run), before the `if f` filter. -/
def splitDollarAux : List Char → List Char → List (List Char)
  | [], acc => [acc.reverse]
  | c :: rest, acc =>
    if c = '$' then acc.reverse :: splitDollarAux rest [c]
    else splitDollarAux rest (c :: acc)

/-- The dollar-prefix split with empty pieces removed
(`f for f in re.split(...) if f`). -/
def splitDollar (l : List Char) : List (List Char) :=
  (splitDollarAux l []).filter (fun f => ¬f.isEmpty)

/-- The frame post-processing of one complete `\r`-terminated part:
`p = p.strip()`, and if nonempty, the dollar split. -/
def framesOfPart (p : List Char) : List (List Char) :=
  let s := pyStrip p
  if s.isEmpty then [] else splitDollar s

/-- `_extract_frames(raw)` acting on an explicit buffer state: returns the
extracted frames and the new `_frame_buffer`.  Mirrors: append cleaned
text to the buffer; if no `\r` is present return nothing; otherwise split
on `\r`, keep the last part as the new buffer, and post-process the rest. -/
def extractFrames (buffer raw : List Char) : List (List Char) × List Char :=
  let buf := buffer ++ cleanRaw raw
  if '\r' ∈ buf then
    let parts := pySplit '\r' buf
    ((parts.dropLast).flatMap framesOfPart, parts.getLastD [])
  else ([], buf)

/-- Feeding a sequence of reads through `_extract_frames`, concatenating
all extracted frames and carrying the buffer. -/
def extractFramesAll (buffer : List Char) : List (List Char) → List (List Char) × List Char
  | [] => ([], buffer)
  | chunk :: rest =>
    let r1 := extractFrames buffer chunk
    let r2 := extractFramesAll r1.2 rest
    (r1.1 ++ r2.1, r2.2)

/-! ## listener.py: dispatch -/

/-- Whether `_dispatch_message(message)` puts `message` on
`response_queue`: the message is nonempty, starts with `$`, and either
starts with `$05` or passes `validate_crc`. -/
def dispatchEnqueues (message : List Char) : Bool :=
  if message.isEmpty then false
  else if ['$'].isPrefixOf message then
    ['$', '0', '5'].isPrefixOf message || validate_crc message
  else false

/-! ## command_handler.py: correlated wait with retries -/

/-- `MAX_ATTEMPTS` (command_handler.py): maximum number of send attempts. -/
def MAX_ATTEMPTS : Nat := 3

/-- Python substring containment `needle in hay`. -/
def containsSub (hay needle : List Char) : Bool :=
  (List.range (hay.length + 1)).any (fun i => needle.isPrefixOf (hay.drop i))

/-- Python truthiness of `answer_received` in
`if ack_received and answer_received`: a stored answer is truthy iff it is
a nonempty string. -/
def answerTruthy : Option (List Char) → Bool
  | none => false
  | some m => ¬m.isEmpty

/-- How one attempt window of `_wait_for_signals` ends. -/
inductive InnerExit where
  | deadline  : InnerExit
  | broke     : InnerExit
  | returned  : InnerExit
deriving DecidableEq

/-- The receive loop of one attempt of `_wait_for_signals`.  The stream
is the sequence of results delivered by `receive()`; a `none` entry marks
the expiry of this attempt's `ack_deadline` (receive timeouts that do not
reach the deadline leave no observable state and are absorbed into it),
and an exhausted stream behaves like the deadline (a silent bus).  For a
`some message` entry, faithfully to the source: record the acknowledgment
when `ack_signal in message`; when `answer_signal in message` store the
message and `break`; otherwise if both the flag and a truthy stored answer
are present, `return answer_received`. -/
def innerLoop (ackSig ansSig : List Char) :
    List (Option (List Char)) → Bool → Option (List Char) →
    InnerExit × Bool × Option (List Char) × List (Option (List Char))
  | [], ack, ans => (.deadline, ack, ans, [])
  | none :: rest, ack, ans => (.deadline, ack, ans, rest)
  | some m :: rest, ack, ans =>
    let ack2 := ack || containsSub m ackSig
    if containsSub m ansSig then (.broke, ack2, some m, rest)
    else if ack2 && answerTruthy ans then (.returned, ack2, ans, rest)
    else innerLoop ackSig ansSig rest ack2 ans

/-- The attempt loop of `_wait_for_signals`: at each attempt the command
is sent once, then the receive loop runs; an early `return` ends the call
with the stored answer, otherwise the next attempt starts on the rest of
the stream.  After the last attempt, `answer_received` is returned as is
(`None` becomes an absent result, never an exception).  The first result
component counts how many times the command was sent. -/
def attemptLoop (ackSig ansSig : List Char) :
    Nat → List (Option (List Char)) → Bool → Option (List Char) → Nat →
    Nat × Option (List Char)
  | 0, _, _, ans, sends => (sends, ans)
  | k + 1, stream, ack, ans, sends =>
    match innerLoop ackSig ansSig stream ack ans with
    | (.returned, _, ans2, _) => (sends + 1, ans2)
    | (_, ack2, ans2, rest) => attemptLoop ackSig ansSig k rest ack2 ans2 (sends + 1)

/-- `_wait_for_signals(command, ack_signal, answer_signal)` over a given
receive stream: `MAX_ATTEMPTS` attempts, starting with no acknowledgment
and no answer. -/
def waitForSignals (ackSig ansSig : List Char) (stream : List (Option (List Char))) :
    Nat × Option (List Char) :=
  attemptLoop ackSig ansSig MAX_ATTEMPTS stream false none 0

/-! ## command.py: module state cache -/

/-- The `_module_states` dictionary: addresses mapped to their cached
six-byte group buffer. -/
def ModuleStates : Type := String → Option (List Nat)

/-- `set_cached_state(address, channel, state)` from command.py: create an
all-zero six-byte buffer on first reference to the address, then write
`state` at index `(channel - 1) % 6` (Python modulo, nonnegative). -/
def set_cached_state (st : ModuleStates) (address : String) (channel : Int)
    (state : Nat) : ModuleStates :=
  let buf := (st address).getD (List.replicate 6 0)
  let idx := ((channel - 1).emod 6).toNat
  fun a => if a = address then some (buf.set idx state) else st a

/-- The data that `set_output_states(address)` passes to
`make_pc_link_command(0x12, address, data)`: the cached buffer for the
address; `none` models the skipped batch update (warning, no send). -/
def setOutputStatesData (st : ModuleStates) (address : String) : Option (List Nat) :=
  st address

/-! ## Basic lemmas about the embedding -/

theorem natToHexRevAux_irrel :
    ∀ f g n, n ≤ f → n ≤ g → natToHexRevAux f n = natToHexRevAux g n := by
  intro f
  induction f with
  | zero =>
    intro g n hf _
    interval_cases n
    cases g <;> simp [natToHexRevAux]
  | succ f ih =>
    intro g n hf hg
    cases g with
    | zero =>
      interval_cases n
      simp [natToHexRevAux]
    | succ g =>
      by_cases hn : n = 0
      · simp [natToHexRevAux, hn]
      · have hdiv : n / 16 < n := Nat.div_lt_self (Nat.pos_of_ne_zero hn) (by norm_num)
        simp only [natToHexRevAux, hn, if_false]
        rw [ih g (n / 16) (by omega) (by omega)]

theorem natToHexRev_eq (n : Nat) :
    natToHexRev n = if n = 0 then [] else hexDigitChar (n % 16) :: natToHexRev (n / 16) := by
  by_cases hn : n = 0
  · simp [natToHexRev, natToHexRevAux, hn]
  · have hdiv : n / 16 < n := Nat.div_lt_self (Nat.pos_of_ne_zero hn) (by norm_num)
    cases n with
    | zero => simp at hn
    | succ m =>
      simp only [natToHexRev, natToHexRevAux, hn, if_false]
      rw [natToHexRevAux_irrel m ((m + 1) / 16) ((m + 1) / 16) (by omega) (le_refl _)]

theorem secondDollarPos_pos (message : List Char) (h : 2 ≤ message.length) :
    1 ≤ secondDollarPos message := by
  unfold secondDollarPos
  split
  · omega
  · omega

theorem validateCrcAux_irrel :
    ∀ f g msg, msg.length ≤ f → msg.length ≤ g → validateCrcAux f msg = validateCrcAux g msg := by
  intro f
  induction f with
  | zero =>
    intro g msg hf _
    have hm : msg = [] := List.length_eq_zero.mp (by omega)
    subst hm
    cases g <;> simp [validateCrcAux, validateCore]
  | succ f ih =>
    intro g msg hf hg
    cases g with
    | zero =>
      have hm : msg = [] := List.length_eq_zero.mp (by omega)
      subst hm
      simp [validateCrcAux, validateCore]
    | succ g =>
      by_cases hc : msg.count '$' > 1
      · have hlen : 2 ≤ msg.length := le_trans hc (List.count_le_length _ _)
        have hpos := secondDollarPos_pos msg hlen
        simp only [validateCrcAux, hc, if_true]
        rw [ih g (msg.drop (secondDollarPos msg))
          (by simp only [List.length_drop]; omega)
          (by simp only [List.length_drop]; omega)]
      · simp [validateCrcAux, hc]

theorem validate_crc_eq_core (msg : List Char) (h : msg.count '$' ≤ 1) :
    validate_crc msg = validateCore msg := by
  unfold validate_crc
  cases hl : msg.length with
  | zero => simp [validateCrcAux]
  | succ n =>
    have hc : ¬msg.count '$' > 1 := by omega
    simp [validateCrcAux, hc]

theorem validate_crc_rec (msg : List Char) (h : 1 < msg.count '$') :
    validate_crc msg = validate_crc (msg.drop (secondDollarPos msg)) := by
  have hlen : 2 ≤ msg.length := le_trans h (List.count_le_length _ _)
  have hpos := secondDollarPos_pos msg hlen
  unfold validate_crc
  cases hl : msg.length with
  | zero => omega
  | succ n =>
    simp only [validateCrcAux, h, if_true]
    apply validateCrcAux_irrel
    · simp only [List.length_drop]; omega
    · simp only [List.length_drop]; omega

/-! ## C1: generated commands versus the validator -/

set_option maxRecDepth 10000 in
/-- C1: FALSIFIED (code bug).  `make_pc_link_command` writes the length
field as `len(data_with_crc1)//2 + 1` (here `0x06`), while `validate_crc`
accepts a frame only when `len(frame) == field - 1` (which would require
`0x10` for this 15-character frame), so every frame the builder emits is
rejected by the validator; the repository's own handshake constant
`$10110000B8CF9D` in const.py carries the same payload and CRCs with the
`0x10` length field and is accepted, showing the builder, not the
validator, deviates from the intended wire format.  The claim's own
relation (field = characters after the field + 1, which would be `0x0D`)
matches neither side.  Concretely for `func=0x11, addr="0000", args=None`. -/
theorem make_pc_link_command_rejected_by_validate_crc :
    make_pc_link_command 0x11 0 none = some ("$06110000B8CF39".toList) ∧
    validate_crc ("$06110000B8CF39".toList) = false ∧
    ("$06110000B8CF39".toList).length = 15 ∧
    pyIntHex (("$06110000B8CF39".toList.drop 1).take 2) = some 6 ∧
    validate_crc ("$10110000B8CF9D".toList) = true := by
  refine ⟨by decide, ?_, by decide, by decide, ?_⟩
  · rw [validate_crc_eq_core _ (by decide)]
    decide
  · rw [validate_crc_eq_core _ (by decide)]
    decide

/-! ## C9: int_to_hex width behaviour -/

theorem hexDigitVal_hexDigitChar (m : Nat) (hm : m < 16) :
    hexDigitVal (hexDigitChar m) = m := by
  interval_cases m <;> decide

theorem hexDigitChar_upper (m : Nat) (hm : m < 16) :
    Char.toUpper (hexDigitChar m) = hexDigitChar m ∧ isHexDigitChar (hexDigitChar m) = true := by
  interval_cases m <;> exact ⟨by decide, by decide⟩

theorem mem_natToHexRev (n : Nat) (c : Char) (hc : c ∈ natToHexRev n) :
    ∃ m, m < 16 ∧ c = hexDigitChar m := by
  induction n using Nat.strong_induction_on with
  | _ n ih =>
    rw [natToHexRev_eq] at hc
    by_cases hn : n = 0
    · simp [hn] at hc
    · simp only [hn, if_false, List.mem_cons] at hc
      rcases hc with hc | hc
      · exact ⟨n % 16, Nat.mod_lt _ (by norm_num), hc⟩
      · exact ih (n / 16) (Nat.div_lt_self (Nat.pos_of_ne_zero hn) (by norm_num)) hc

theorem natToHexRev_length_le (k : Nat) :
    ∀ n, n < 16 ^ k → (natToHexRev n).length ≤ k := by
  induction k with
  | zero =>
    intro n hn
    interval_cases n
    decide
  | succ k ih =>
    intro n hn
    rw [natToHexRev_eq]
    by_cases hz : n = 0
    · simp [hz]
    · simp only [hz, if_false, List.length_cons]
      have : n / 16 < 16 ^ k := by
        rw [Nat.div_lt_iff_lt_mul (by norm_num)]
        calc n < 16 ^ (k + 1) := hn
        _ = 16 ^ k * 16 := by ring
      have := ih (n / 16) this
      omega

theorem natToHexRev_length_gt (k : Nat) :
    ∀ n, 16 ^ k ≤ n → k < (natToHexRev n).length := by
  induction k with
  | zero =>
    intro n hn
    rw [natToHexRev_eq]
    have hz : n ≠ 0 := by positivity
    simp [hz]
  | succ k ih =>
    intro n hn
    rw [natToHexRev_eq]
    have hz : n ≠ 0 := by
      have : 0 < 16 ^ (k + 1) := by positivity
      omega
    simp only [hz, if_false, List.length_cons]
    have : 16 ^ k ≤ n / 16 := by
      rw [Nat.le_div_iff_mul_le (by norm_num)]
      calc 16 ^ k * 16 = 16 ^ (k + 1) := by ring
      _ ≤ n := hn
    have := ih (n / 16) this
    omega

theorem hexListVal_append_single (l : List Char) (c : Char) :
    hexListVal (l ++ [c]) = 16 * hexListVal l + hexDigitVal c := by
  unfold hexListVal
  rw [List.foldl_append]
  rfl

theorem hexListVal_natToHexRev_reverse (n : Nat) :
    hexListVal (natToHexRev n).reverse = n := by
  induction n using Nat.strong_induction_on with
  | _ n ih =>
    rw [natToHexRev_eq]
    by_cases hz : n = 0
    · simp [hz, hexListVal]
    · simp only [hz, if_false, List.reverse_cons]
      rw [hexListVal_append_single,
        ih (n / 16) (Nat.div_lt_self (Nat.pos_of_ne_zero hz) (by norm_num)),
        hexDigitVal_hexDigitChar (n % 16) (Nat.mod_lt _ (by norm_num))]
      omega

theorem hexListVal_replicate_zero (k : Nat) (l : List Char) :
    hexListVal (List.replicate k '0' ++ l) = hexListVal l := by
  induction k with
  | zero => simp
  | succ k ih =>
    have : List.replicate (k + 1) '0' ++ l = '0' :: (List.replicate k '0' ++ l) := by
      simp [List.replicate_succ]
    rw [this]
    unfold hexListVal at ih ⊢
    simpa using ih

theorem int_to_hex_length_eq (value digits : Nat) (hd : 1 ≤ digits)
    (hv : value < 16 ^ digits) : (int_to_hex value digits).length = digits := by
  unfold int_to_hex natToHex
  by_cases hz : value = 0
  · simp [hz]
    omega
  · have hle := natToHexRev_length_le digits value hv
    simp [hz]
    omega

theorem int_to_hex_length_gt (value digits : Nat) (hv : 16 ^ digits ≤ value) :
    digits < (int_to_hex value digits).length := by
  have hz : value ≠ 0 := by
    have : 0 < 16 ^ digits := by positivity
    omega
  have hgt := natToHexRev_length_gt digits value hv
  unfold int_to_hex natToHex
  simp [hz]
  omega

theorem int_to_hex_val (value digits : Nat) :
    hexListVal (int_to_hex value digits) = value := by
  unfold int_to_hex
  rw [hexListVal_replicate_zero]
  unfold natToHex
  by_cases hz : value = 0
  · simp [hz, hexListVal, hexDigitVal]
  · simp only [hz, if_false]
    exact hexListVal_natToHexRev_reverse value

theorem int_to_hex_chars (value digits : Nat) :
    ∀ c ∈ int_to_hex value digits, Char.toUpper c = c ∧ isHexDigitChar c = true := by
  intro c hc
  unfold int_to_hex at hc
  rcases List.mem_append.mp hc with hc | hc
  · have : c = '0' := List.eq_of_mem_replicate hc
    subst this
    exact ⟨by decide, by decide⟩
  · unfold natToHex at hc
    by_cases hz : value = 0
    · simp [hz] at hc
      subst hc
      exact ⟨by decide, by decide⟩
    · simp only [hz, if_false, List.mem_reverse] at hc
      obtain ⟨m, hm, hcm⟩ := mem_natToHexRev value c hc
      subst hcm
      exact ⟨(hexDigitChar_upper m hm).1, (hexDigitChar_upper m hm).2⟩

/-- C9: CORRECTED.  `int_to_hex` never fails: for a value that fits (and
at least one requested digit) the result is the zero-padded uppercase
hexadecimal string of exactly the requested width, decoding back to the
value; for a value that does not fit, the result is silently wider than
requested (Python width formatting pads but never truncates or raises),
rather than failing as the claim demands. -/
theorem int_to_hex_width (value digits : Nat) :
    (1 ≤ digits → value < 16 ^ digits → (int_to_hex value digits).length = digits) ∧
    (16 ^ digits ≤ value → digits < (int_to_hex value digits).length) ∧
    hexListVal (int_to_hex value digits) = value ∧
    (∀ c ∈ int_to_hex value digits, Char.toUpper c = c ∧ isHexDigitChar c = true) :=
  ⟨fun hd hv => int_to_hex_length_eq value digits hd hv,
    fun hv => int_to_hex_length_gt value digits hv,
    int_to_hex_val value digits,
    int_to_hex_chars value digits⟩

/-- C9 counterexample: at `value = 256, digits = 2` the Python format
does not fail; it silently returns the three-character string `100`,
wider than the requested two digits. -/
theorem int_to_hex_overflow_widens :
    int_to_hex 256 2 = "100".toList ∧ (int_to_hex 256 2).length ≠ 2 := by
  exact ⟨by decide, by decide⟩

/-- C9 witness: the fitting case at `value = 43, digits = 2`. -/
theorem int_to_hex_width_witness :
    (int_to_hex 43 2).length = 2 ∧ hexListVal (int_to_hex 43 2) = 43 :=
  ⟨(int_to_hex_width 43 2).1 (by decide) (by decide), (int_to_hex_width 43 2).2.2.1⟩

/-! ## C10: what reaches the correlation queue -/

set_option maxRecDepth 10000 in
/-- C10: CONFIRMED.  `_dispatch_message` puts a message on the response
queue iff it begins with `$` and either begins with `$05` or passes
`validate_crc`; consequently every enqueued message begins with `$`, and
a message beginning with `$05` is enqueued whatever its length and CRC —
witnessed by the nine-character `$05A6B7C8`, which fails `validate_crc`
yet is enqueued. -/
theorem dispatch_enqueues_iff :
    (∀ message : List Char,
      dispatchEnqueues message = true ↔
        (['$'].isPrefixOf message = true ∧
          (['$', '0', '5'].isPrefixOf message = true ∨ validate_crc message = true))) ∧
    (∀ message : List Char, dispatchEnqueues message = true →
      ['$'].isPrefixOf message = true) ∧
    (dispatchEnqueues ("$05A6B7C8".toList) = true ∧
      validate_crc ("$05A6B7C8".toList) = false ∧
      ("$05A6B7C8".toList).length ≠ 5) := by
  have hiff : ∀ message : List Char,
      dispatchEnqueues message = true ↔
        (['$'].isPrefixOf message = true ∧
          (['$', '0', '5'].isPrefixOf message = true ∨ validate_crc message = true)) := by
    intro message
    unfold dispatchEnqueues
    cases message with
    | nil => simp [List.isPrefixOf]
    | cons c rest =>
      simp only [List.isEmpty_cons, if_false]
      by_cases hpre : ['$'].isPrefixOf (c :: rest) = true
      · simp [hpre]
      · simp [hpre]
  refine ⟨hiff, fun message h => ((hiff message).mp h).1, ?_, ?_, by decide⟩
  · unfold dispatchEnqueues
    decide
  · rw [validate_crc_eq_core _ (by decide)]
    decide

/-- C10 witness: the iff and the prefix consequence applied at the
concrete enqueued message `$05A6B7C8`. -/
theorem dispatch_enqueues_iff_witness :
    dispatchEnqueues ("$05A6B7C8".toList) = true ∧
    ['$'].isPrefixOf ("$05A6B7C8".toList) = true :=
  ⟨dispatch_enqueues_iff.2.2.1,
    dispatch_enqueues_iff.2.1 ("$05A6B7C8".toList) dispatch_enqueues_iff.2.2.1⟩

/-! ## C7: the module state cache -/

/-- C7: CONFIRMED.  `set_cached_state` creates an all-zero six-byte
buffer on first reference to an address, writes the byte value at the
zero-based index `(channel - 1) % 6` derived from the one-based channel,
leaves every other index and every other address untouched, and a
subsequent group refresh (`set_output_states`) sends exactly this buffer.
The hypotheses scope the statement to byte values (a Python `bytearray`
rejects values above 255) and to cache states whose buffers are six bytes
long, the invariant the cache maintains. -/
theorem set_cached_state_updates
    (st : ModuleStates) (address : String) (channel : Int) (state : Nat)
    (hstate : state ≤ 255)
    (hbuf : ∀ b, st address = some b → b.length = 6) :
    ∃ buf2,
      set_cached_state st address channel state address = some buf2 ∧
      buf2.length = 6 ∧
      buf2[((channel - 1).emod 6).toNat]? = some state ∧
      (∀ j : Nat, j < 6 → j ≠ ((channel - 1).emod 6).toNat →
        buf2[j]? = ((st address).getD (List.replicate 6 0))[j]?) ∧
      (∀ a, a ≠ address → set_cached_state st address channel state a = st a) ∧
      setOutputStatesData (set_cached_state st address channel state) address = some buf2 := by
  have hidx : ((channel - 1).emod 6).toNat < 6 := by
    have h1 : 0 ≤ (channel - 1).emod 6 := Int.emod_nonneg _ (by norm_num)
    have h2 : (channel - 1).emod 6 < 6 := Int.emod_lt_of_pos _ (by norm_num)
    omega
  have hbuflen : ((st address).getD (List.replicate 6 0)).length = 6 := by
    cases h : st address with
    | none => simp
    | some b => simpa using hbuf b h
  refine ⟨((st address).getD (List.replicate 6 0)).set (((channel - 1).emod 6).toNat) state,
    ?_, ?_, ?_, ?_, ?_, ?_⟩
  · simp [set_cached_state]
  · rw [List.length_set]
    exact hbuflen
  · rw [List.getElem?_set_self]
    omega
  · intro j hj hne
    rw [List.getElem?_set_ne (by omega)]
  · intro a ha
    simp [set_cached_state, ha]
  · simp [setOutputStatesData, set_cached_state]

/-- C7 witness: on a fresh cache, setting channel 3 of one address to
`0xFF` yields the buffer `[0, 0, 255, 0, 0, 0]`, and the group refresh
for that address sends exactly it. -/
theorem set_cached_state_updates_witness :
    ∃ buf2,
      set_cached_state (fun _ => none) "C9A5" 3 255 "C9A5" = some buf2 ∧
      buf2.length = 6 ∧
      buf2[(((3 : Int) - 1).emod 6).toNat]? = some 255 ∧
      (∀ j : Nat, j < 6 → j ≠ (((3 : Int) - 1).emod 6).toNat →
        buf2[j]? = (((fun _ => none : ModuleStates) "C9A5").getD (List.replicate 6 0))[j]?) ∧
      (∀ a, a ≠ "C9A5" → set_cached_state (fun _ => none) "C9A5" 3 255 a =
        (fun _ => none : ModuleStates) a) ∧
      setOutputStatesData (set_cached_state (fun _ => none) "C9A5" 3 255) "C9A5" = some buf2 :=
  set_cached_state_updates (fun _ => none) "C9A5" 3 255 (by decide)
    (fun b hb => by cases hb)

/-! ## C5: command assembly structure -/

theorem crc1Round_lt (x : Nat) : crc1Round x < 65536 := by
  unfold crc1Round
  split
  · have := Nat.and_le_right (n := (x <<< 1) ^^^ 0x1021) (m := 0xFFFF)
    omega
  · have := Nat.and_le_right (n := x <<< 1) (m := 0xFFFF)
    omega

theorem crc1Round_iterate_lt (x : Nat) : crc1Round^[8] x < 65536 := by
  rw [show (8 : Nat) = 7 + 1 from rfl, Function.iterate_succ_apply']
  exact crc1Round_lt _

theorem crc1Bytes_lt (bytes : List Nat) : crc1Bytes bytes < 65536 := by
  unfold crc1Bytes
  have : ∀ (l : List Nat) (acc : Nat), acc < 65536 →
      l.foldl (fun crc b => crc1Round^[8] (crc ^^^ (b <<< 8))) acc < 65536 := by
    intro l
    induction l with
    | nil => intro acc h; simpa using h
    | cons b rest ih =>
      intro acc _
      simpa using ih _ (crc1Round_iterate_lt _)
  exact this _ _ (by norm_num)

theorem crc2Round_lt (x : Nat) : crc2Round x < 256 := by
  unfold crc2Round
  split
  · have := Nat.and_le_right (n := (x <<< 1) ^^^ 0x99) (m := 0xFF)
    omega
  · have := Nat.and_le_right (n := x <<< 1) (m := 0xFF)
    omega

theorem crc2Round_iterate_lt (x : Nat) : crc2Round^[8] x < 256 := by
  rw [show (8 : Nat) = 7 + 1 from rfl, Function.iterate_succ_apply']
  exact crc2Round_lt _

theorem calc_crc2_lt (data : List Char) : calc_crc2 data < 256 := by
  unfold calc_crc2
  have : ∀ (l : List Char) (acc : Nat), acc < 256 →
      l.foldl (fun crc c => crc2Round^[8] (crc ^^^ c.toNat)) acc < 256 := by
    intro l
    induction l with
    | nil => intro acc h; simpa using h
    | cons c rest ih =>
      intro acc _
      simpa using ih _ (crc2Round_iterate_lt _)
  exact this _ _ (by norm_num)

theorem int_to_hex2_pair (v : Nat) (hv : v ≤ 255) :
    ∃ c1 c2, int_to_hex v 2 = [c1, c2] ∧ isHexDigitChar c1 = true ∧
      isHexDigitChar c2 = true ∧ 16 * hexDigitVal c1 + hexDigitVal c2 = v := by
  have hlen : (int_to_hex v 2).length = 2 :=
    int_to_hex_length_eq v 2 (by norm_num) (by norm_num; omega)
  match hl : int_to_hex v 2 with
  | [c1, c2] =>
    have h1 := int_to_hex_chars v 2 c1 (by rw [hl]; simp)
    have h2 := int_to_hex_chars v 2 c2 (by rw [hl]; simp)
    refine ⟨c1, c2, rfl, h1.2, h2.2, ?_⟩
    have := int_to_hex_val v 2
    rw [hl] at this
    simpa [hexListVal] using this
  | [] => rw [hl] at hlen; simp at hlen
  | [c] => rw [hl] at hlen; simp at hlen
  | c1 :: c2 :: c3 :: r => rw [hl] at hlen; simp at hlen

theorem hexPairs_int_to_hex2 (v : Nat) (hv : v ≤ 255) (rest : List Char) :
    hexPairs (int_to_hex v 2 ++ rest) = (hexPairs rest).map (fun l => v :: l) := by
  obtain ⟨c1, c2, heq, h1, h2, hval⟩ := int_to_hex2_pair v hv
  rw [heq]
  simp [hexPairs, h1, h2, hval]

theorem hexPairs_flatMap (bs : List Nat) (h : ∀ b ∈ bs, b ≤ 255) :
    hexPairs (bs.flatMap (fun b => int_to_hex b 2)) = some bs := by
  induction bs with
  | nil => simp [hexPairs]
  | cons b rest ih =>
    rw [List.flatMap_cons, hexPairs_int_to_hex2 b (h b (by simp)),
      ih (fun x hx => h x (by simp [hx]))]
    rfl

theorem flatMap_int_to_hex2_length (bs : List Nat) (h : ∀ b ∈ bs, b ≤ 255) :
    (bs.flatMap (fun b => int_to_hex b 2)).length = 2 * bs.length := by
  induction bs with
  | nil => simp
  | cons b rest ih =>
    rw [List.flatMap_cons, List.length_append,
      int_to_hex_length_eq b 2 (by norm_num) (by norm_num; exact lt_of_le_of_lt (h b (by simp)) (by norm_num)),
      ih (fun x hx => h x (by simp [hx])), List.length_cons]
    ring

theorem make_pc_link_command_assembly_bytes (func addrVal : Nat) (bs : List Nat)
    (hfunc : func ≤ 255) (hbs : ∀ b ∈ bs, b ≤ 255) :
    make_pc_link_command func addrVal (some bs) = some
      (let payload := int_to_hex func 2 ++ int_to_hex ((addrVal >>> 0) &&& 0xFF) 2 ++
          int_to_hex ((addrVal >>> 8) &&& 0xFF) 2 ++ bs.flatMap (fun b => int_to_hex b 2)
       let crc16hex := int_to_hex (crc1Bytes ([func, (addrVal >>> 0) &&& 0xFF,
          (addrVal >>> 8) &&& 0xFF] ++ bs)) 4
       let lenField := int_to_hex (payload.length / 2 + 3) 2
       let prefixed := '$' :: (lenField ++ payload ++ crc16hex)
       prefixed ++ int_to_hex (calc_crc2 prefixed) 2) := by
  simp only [Nat.shiftRight_zero]
  have hlo : addrVal &&& 0xFF ≤ 255 := Nat.and_le_right
  have hhi : (addrVal >>> 8) &&& 0xFF ≤ 255 := Nat.and_le_right
  have hf2 : (int_to_hex func 2).length = 2 :=
    int_to_hex_length_eq func 2 (by norm_num) (by norm_num; omega)
  have hl2 : (int_to_hex (addrVal &&& 0xFF) 2).length = 2 :=
    int_to_hex_length_eq (addrVal &&& 0xFF) 2 (by norm_num) (by norm_num; omega)
  have hh2 : (int_to_hex ((addrVal >>> 8) &&& 0xFF) 2).length = 2 :=
    int_to_hex_length_eq ((addrVal >>> 8) &&& 0xFF) 2 (by norm_num) (by norm_num; omega)
  have hfm := flatMap_int_to_hex2_length bs hbs
  have hcrc16len : (int_to_hex (crc1Bytes ([func, addrVal &&& 0xFF,
      (addrVal >>> 8) &&& 0xFF] ++ bs)) 4).length = 4 :=
    int_to_hex_length_eq _ 4 (by norm_num) (by
      have := crc1Bytes_lt ([func, addrVal &&& 0xFF, (addrVal >>> 8) &&& 0xFF] ++ bs)
      norm_num at this ⊢
      omega)
  have hpairs : hexPairs (int_to_hex func 2 ++ (int_to_hex (addrVal &&& 0xFF) 2 ++
      (int_to_hex ((addrVal >>> 8) &&& 0xFF) 2 ++ bs.flatMap (fun b => int_to_hex b 2)))) =
      some ([func, addrVal &&& 0xFF, (addrVal >>> 8) &&& 0xFF] ++ bs) := by
    rw [hexPairs_int_to_hex2 func hfunc, hexPairs_int_to_hex2 _ hlo,
      hexPairs_int_to_hex2 _ hhi, hexPairs_flatMap _ hbs]
    rfl
  unfold make_pc_link_command append_crc1 calc_crc1 append_crc2
  simp only [Nat.shiftRight_zero, List.append_assoc]
  rw [hpairs]
  simp only [Option.map_map, Option.map_some']
  congr 1
  simp only [List.length_append, hf2, hl2, hh2, hfm, hcrc16len]
  have harith : (2 + (2 + (2 + (2 * bs.length + 4)))) / 2 + 1 =
      (2 + (2 + (2 + 2 * bs.length))) / 2 + 3 := by omega
  rw [harith]

/-- C5: CORRECTED.  `make_pc_link_command` assembles `$`, a 2-digit
length field whose value is (payload length in hex-digit pairs) + 3, the
payload (function code, little-endian address, optional data), the
4-digit CRC-16 over the payload bytes, and finally a 2-digit CRC-8 — but
the `$` is prefixed BEFORE the CRC-8 is computed, so the CRC-8 covers
`'$' + length field + payload + CRC-16`, not just
`length field + payload + CRC-16` as the claim states. -/
theorem make_pc_link_command_assembly (func addrVal : Nat) (args : Option (List Nat))
    (hfunc : func ≤ 255) (hargs : ∀ b ∈ args.getD [], b ≤ 255) :
    make_pc_link_command func addrVal args = some
      (let payload := int_to_hex func 2 ++ int_to_hex ((addrVal >>> 0) &&& 0xFF) 2 ++
          int_to_hex ((addrVal >>> 8) &&& 0xFF) 2 ++
          (args.getD []).flatMap (fun b => int_to_hex b 2)
       let crc16hex := int_to_hex (crc1Bytes ([func, (addrVal >>> 0) &&& 0xFF,
          (addrVal >>> 8) &&& 0xFF] ++ args.getD [])) 4
       let lenField := int_to_hex (payload.length / 2 + 3) 2
       let prefixed := '$' :: (lenField ++ payload ++ crc16hex)
       prefixed ++ int_to_hex (calc_crc2 prefixed) 2) := by
  cases args with
  | some bs => exact make_pc_link_command_assembly_bytes func addrVal bs hfunc (by simpa using hargs)
  | none =>
    have hnone : make_pc_link_command func addrVal none =
        make_pc_link_command func addrVal (some []) := by
      rfl
    rw [hnone]
    exact make_pc_link_command_assembly_bytes func addrVal [] hfunc (by simp)

set_option maxRecDepth 10000 in
/-- C5 counterexample: for `func=0x11, addr="0000", args=None` the
emitted frame's trailing CRC-8 digits `39` equal the CRC-8 of the frame
INCLUDING the leading `$` (`$06110000B8CF`), and differ from the CRC-8 of
`06110000B8CF` (length field + payload + CRC-16 without the `$`, which is
`0xAA`), refuting the claim's CRC-8 scope. -/
theorem make_pc_link_command_crc8_includes_dollar :
    make_pc_link_command 0x11 0 none = some ("$06110000B8CF39".toList) ∧
    ("$06110000B8CF39".toList).drop 13 =
      int_to_hex (calc_crc2 (("$06110000B8CF39".toList).take 13)) 2 ∧
    ("$06110000B8CF39".toList).drop 13 ≠
      int_to_hex (calc_crc2 ((("$06110000B8CF39".toList).take 13).drop 1)) 2 := by
  exact ⟨by decide, by decide, by decide⟩

/-- C5 witness: the assembly theorem applied at
`func=0x15, addr=0xA56C, args=[0xFF, 0, 0, 0, 0, 0, 0xFF]` (a typical
set-output command). -/
theorem make_pc_link_command_assembly_witness :
    make_pc_link_command 0x15 0xA56C (some [0xFF, 0, 0, 0, 0, 0, 0xFF]) = some
      (let payload := int_to_hex 0x15 2 ++ int_to_hex ((0xA56C >>> 0) &&& 0xFF) 2 ++
          int_to_hex ((0xA56C >>> 8) &&& 0xFF) 2 ++
          ((some [0xFF, 0, 0, 0, 0, 0, 0xFF] : Option (List Nat)).getD []).flatMap
            (fun b => int_to_hex b 2)
       let crc16hex := int_to_hex (crc1Bytes ([0x15, (0xA56C >>> 0) &&& 0xFF,
          (0xA56C >>> 8) &&& 0xFF] ++
          (some [0xFF, 0, 0, 0, 0, 0, 0xFF] : Option (List Nat)).getD [])) 4
       let lenField := int_to_hex (payload.length / 2 + 3) 2
       let prefixed := '$' :: (lenField ++ payload ++ crc16hex)
       prefixed ++ int_to_hex (calc_crc2 prefixed) 2) :=
  make_pc_link_command_assembly 0x15 0xA56C (some [0xFF, 0, 0, 0, 0, 0, 0xFF])
    (by decide) (by decide)

/-! ## C3: exhausted retries return an absent answer -/

theorem innerLoop_no_signal (ackSig ansSig : List Char) :
    ∀ stream : List (Option (List Char)),
      (∀ m, some m ∈ stream → containsSub m ackSig = false ∧ containsSub m ansSig = false) →
      ∃ rest, innerLoop ackSig ansSig stream false none = (.deadline, false, none, rest) ∧
        (∀ m, some m ∈ rest → containsSub m ackSig = false ∧ containsSub m ansSig = false) := by
  intro stream
  induction stream with
  | nil => intro _; exact ⟨[], rfl, by simp⟩
  | cons x rest ih =>
    intro h
    cases x with
    | none =>
      exact ⟨rest, rfl, fun m hm => h m (by simp [hm])⟩
    | some m =>
      have hm := h m (by simp)
      obtain ⟨r2, hr2, hrest⟩ := ih (fun x hx => h x (by simp [hx]))
      refine ⟨r2, ?_, hrest⟩
      simp [innerLoop, hm.1, hm.2, answerTruthy, hr2]

theorem attemptLoop_no_signal (ackSig ansSig : List Char) :
    ∀ (k : Nat) (stream : List (Option (List Char))) (sends : Nat),
      (∀ m, some m ∈ stream → containsSub m ackSig = false ∧ containsSub m ansSig = false) →
      attemptLoop ackSig ansSig k stream false none sends = (sends + k, none) := by
  intro k
  induction k with
  | zero => intro stream sends _; simp [attemptLoop]
  | succ k ih =>
    intro stream sends h
    obtain ⟨rest, hinner, hrest⟩ := innerLoop_no_signal ackSig ansSig stream h
    unfold attemptLoop
    rw [hinner]
    simp only []
    rw [ih rest (sends + 1) hrest]
    congr 1
    omega

/-- C3: CONFIRMED.  A correlated request whose receive stream never
contains the acknowledgment signature (nor the answer signature) returns
an absent answer (`none`, never an exception — the model is total and the
source catches its only timeout exception) and has sent the command
exactly `MAX_ATTEMPTS = 3` times, once per attempt. -/
theorem wait_for_signals_silent_bus (ackSig ansSig : List Char)
    (stream : List (Option (List Char)))
    (h : ∀ m, some m ∈ stream →
      containsSub m ackSig = false ∧ containsSub m ansSig = false) :
    waitForSignals ackSig ansSig stream = (MAX_ATTEMPTS, none) ∧ MAX_ATTEMPTS = 3 := by
  refine ⟨?_, rfl⟩
  unfold waitForSignals
  rw [attemptLoop_no_signal ackSig ansSig MAX_ATTEMPTS stream 0 h]
  rfl

/-- C3 witness: a stream delivering one unrelated frame and two deadline
expiries yields three sends and no answer. -/
theorem wait_for_signals_silent_bus_witness :
    waitForSignals ("$0512".toList) ("$1C6CA5".toList)
      [some ("$0EFF6CA5000001B8".toList), none, none] = (MAX_ATTEMPTS, none) ∧
    MAX_ATTEMPTS = 3 :=
  wait_for_signals_silent_bus ("$0512".toList) ("$1C6CA5".toList)
    [some ("$0EFF6CA5000001B8".toList), none, none]
    (by
      intro m hm
      simp at hm
      subst hm
      exact ⟨by decide, by decide⟩)

/-! ## C2: acknowledgment and answer across separate frames -/

/-- C2: CORRECTED (amended behaviour proved).  The acknowledgment flag
and the answer are recorded independently and may arrive in separate
frames in either order, and the call returns the captured answer; but the
return is immediate only when the acknowledgment completes the pair (as
in the answer-before-acknowledgment scenario, first conjunct: the rest of
the stream is not consumed and no further send happens).  When the answer
completes the pair, the source `break`s out of the receive loop before
the both-observed return check, so the command is re-sent and the answer
is only returned after the remaining attempts run out (second conjunct:
three sends despite both signals observed during the first attempt). -/
theorem wait_for_signals_order (ackSig ansSig : List Char) :
    (∀ (a b : List Char) (rest : List (Option (List Char))),
      containsSub a ansSig = true → a ≠ [] →
      containsSub b ackSig = true → containsSub b ansSig = false →
      waitForSignals ackSig ansSig (some a :: some b :: rest) = (2, some a)) ∧
    (∀ a b : List Char,
      containsSub a ackSig = true → containsSub a ansSig = false →
      containsSub b ansSig = true →
      waitForSignals ackSig ansSig [some a, some b] = (3, some b)) := by
  constructor
  · intro a b rest hans hne hack hbans
    unfold waitForSignals MAX_ATTEMPTS
    unfold attemptLoop innerLoop
    simp only [hans, if_true]
    unfold attemptLoop innerLoop
    simp only [hack, hbans, Bool.or_true, if_false, Bool.true_and, answerTruthy]
    simp [hne]
  · intro a b hack hans hbans
    unfold waitForSignals MAX_ATTEMPTS
    unfold attemptLoop innerLoop
    simp only [hack, hans, Bool.or_false, if_false, answerTruthy, Bool.and_false,
      Bool.false_or, Bool.true_and]
    unfold innerLoop
    simp only [hbans, if_true]
    unfold attemptLoop innerLoop
    rfl

/-- C2 counterexample: with the acknowledgment frame arriving before the
answer frame, both signals have been observed during the first attempt
(after a single send), yet the call does not return then: it re-sends on
every remaining attempt and only then returns the answer (three sends,
not one). -/
theorem wait_for_signals_not_immediate :
    waitForSignals ("$0512".toList) ("$1C6CA5".toList)
      [some ("$0512".toList), some ("$1C6CA5FF00000000B2".toList)] =
      (3, some ("$1C6CA5FF00000000B2".toList)) ∧
    (waitForSignals ("$0512".toList) ("$1C6CA5".toList)
      [some ("$0512".toList), some ("$1C6CA5FF00000000B2".toList)]).1 ≠ 1 := by
  exact ⟨by decide, by decide⟩

/-- C2 witness: the two conjuncts of the order theorem instantiated with
concrete frames: answer `$1C6CA5FF...` first, acknowledgment `$0512`
later (immediate return, two sends), and acknowledgment first, answer
later (three sends). -/
theorem wait_for_signals_order_witness :
    waitForSignals ("$0512".toList) ("$1C6CA5".toList)
      [some ("$1C6CA5FF00000000B2".toList), some ("$0512".toList), none] =
      (2, some ("$1C6CA5FF00000000B2".toList)) ∧
    waitForSignals ("$0512".toList) ("$1C6CA5".toList)
      [some ("$0512".toList), some ("$1C6CA5FF00000000B2".toList)] =
      (3, some ("$1C6CA5FF00000000B2".toList)) :=
  ⟨(wait_for_signals_order ("$0512".toList) ("$1C6CA5".toList)).1
      ("$1C6CA5FF00000000B2".toList) ("$0512".toList) [none]
      (by decide) (by decide) (by decide) (by decide),
    (wait_for_signals_order ("$0512".toList) ("$1C6CA5".toList)).2
      ("$0512".toList) ("$1C6CA5FF00000000B2".toList)
      (by decide) (by decide) (by decide)⟩

/-! ## C6: framer chunking invariance -/

theorem pySplit_ne_nil (sep : Char) : ∀ l, pySplit sep l ≠ [] := by
  intro l
  cases l with
  | nil => simp [pySplit]
  | cons c rest =>
    unfold pySplit
    by_cases hc : c = sep
    · simp [hc]
    · simp only [hc, if_false]
      cases pySplit sep rest <;> simp

theorem pySplit_no_sep (sep : Char) : ∀ l, sep ∉ l → pySplit sep l = [l] := by
  intro l
  induction l with
  | nil => intro _; rfl
  | cons c rest ih =>
    intro h
    have hc : ¬c = sep := fun he => h (by simp [he])
    have hrest : sep ∉ rest := fun hm => h (by simp [hm])
    unfold pySplit
    simp only [hc, if_false, ih hrest]

theorem pySplit_dest (sep : Char) (l : List Char) :
    ∃ h t, pySplit sep l = h :: t := by
  cases hP : pySplit sep l with
  | nil => exact absurd hP (pySplit_ne_nil sep l)
  | cons h t => exact ⟨h, t, rfl⟩

theorem pySplit_cons_sep (sep : Char) (rest : List Char) :
    pySplit sep (sep :: rest) = [] :: pySplit sep rest := by
  conv_lhs => unfold pySplit
  simp

theorem pySplit_cons_ne (sep c : Char) (rest : List Char) (hc : ¬c = sep) :
    pySplit sep (c :: rest) = (pySplit sep rest).modifyHead (fun h => c :: h) := by
  obtain ⟨h, t, ht⟩ := pySplit_dest sep rest
  conv_lhs => unfold pySplit
  rw [ht]
  simp [hc, List.modifyHead]

theorem getLastD_default_irrel {α : Type} (a : α) (l : List α) (d d2 : α) :
    (a :: l).getLastD d = (a :: l).getLastD d2 := by
  cases l with
  | nil => rfl
  | cons b bs => simp only [List.getLastD_cons]

theorem pySplit_getLastD_no_sep (sep : Char) : ∀ l, sep ∉ (pySplit sep l).getLastD [] := by
  intro l
  induction l with
  | nil => simp [pySplit]
  | cons c rest ih =>
    obtain ⟨h, t, ht⟩ := pySplit_dest sep rest
    rw [ht] at ih
    by_cases hc : c = sep
    · subst hc
      rw [pySplit_cons_sep, ht, List.getLastD_cons]
      exact ih
    · rw [pySplit_cons_ne sep c rest hc, ht]
      simp only [List.modifyHead]
      cases t with
      | nil =>
        simp only [List.getLastD_cons, List.getLastD_nil] at ih ⊢
        intro hm
        rcases List.mem_cons.mp hm with hm | hm
        · exact hc hm.symm
        · exact ih hm
      | cons q qs =>
        rw [List.getLastD_cons] at ih ⊢
        rw [getLastD_default_irrel q qs (c :: h) h]
        exact ih

theorem dropLast_append_cons {α : Type} (l1 : List α) (a : α) (l2 : List α) :
    (l1 ++ a :: l2).dropLast = l1 ++ (a :: l2).dropLast := by
  induction l1 with
  | nil => rfl
  | cons b bs ih =>
    have hne : bs ++ a :: l2 ≠ [] := by simp
    cases hb : bs ++ a :: l2 with
    | nil => exact absurd hb hne
    | cons x xs =>
      simp only [List.cons_append, hb, List.dropLast_cons₂]
      rw [← hb, ih]

theorem getLastD_append_cons {α : Type} (l1 : List α) (a : α) (l2 : List α) :
    ∀ d, (l1 ++ a :: l2).getLastD d = (a :: l2).getLastD d := by
  induction l1 with
  | nil => intro d; rfl
  | cons b bs ih =>
    intro d
    simp only [List.cons_append, List.getLastD_cons]
    rw [ih b, List.getLastD_cons]

theorem pySplit_append (sep : Char) (y : List Char) : ∀ x,
    pySplit sep (x ++ y) =
      (pySplit sep x).dropLast ++
        ((pySplit sep x).getLastD [] ++ (pySplit sep y).headD []) ::
          (pySplit sep y).tail := by
  intro x
  induction x with
  | nil =>
    obtain ⟨h, t, ht⟩ := pySplit_dest sep y
    rw [List.nil_append, ht]
    simp [pySplit]
  | cons c x2 ih =>
    obtain ⟨p0, ps, hP⟩ := pySplit_dest sep x2
    obtain ⟨h2, t2, ht2⟩ := pySplit_dest sep y
    rw [hP, ht2] at ih
    by_cases hc : c = sep
    · subst hc
      rw [List.cons_append, pySplit_cons_sep, pySplit_cons_sep, ih, hP, ht2]
      cases ps with
      | nil => simp [List.getLastD_cons]
      | cons q qs =>
        simp [List.dropLast_cons₂, List.getLastD_cons]
    · rw [List.cons_append, pySplit_cons_ne sep c (x2 ++ y) hc,
        pySplit_cons_ne sep c x2 hc, ih, hP, ht2]
      cases ps with
      | nil =>
        simp [List.getLastD_cons, List.modifyHead]
      | cons q qs =>
        simp only [List.modifyHead, List.dropLast_cons₂, List.getLastD_cons,
          List.cons_append, List.headD_cons, List.tail_cons]

theorem extractFrames_eq (buffer raw : List Char) :
    extractFrames buffer raw =
      (((pySplit '\r' (buffer ++ cleanRaw raw)).dropLast).flatMap framesOfPart,
        (pySplit '\r' (buffer ++ cleanRaw raw)).getLastD []) := by
  unfold extractFrames
  by_cases hm : ('\r' : Char) ∈ buffer ++ cleanRaw raw
  · simp only [hm, if_true]
  · simp only [hm, if_false]
    rw [pySplit_no_sep '\r' _ hm]
    simp

theorem extractFrames_snd_no_cr (buffer raw : List Char) :
    ('\r' : Char) ∉ (extractFrames buffer raw).2 := by
  rw [extractFrames_eq]
  exact pySplit_getLastD_no_sep '\r' (buffer ++ cleanRaw raw)

theorem extractFrames_append (buffer s t : List Char) :
    extractFrames buffer (s ++ t) =
      ((extractFrames buffer s).1 ++ (extractFrames (extractFrames buffer s).2 t).1,
        (extractFrames (extractFrames buffer s).2 t).2) := by
  have hclean : cleanRaw (s ++ t) = cleanRaw s ++ cleanRaw t := by
    unfold cleanRaw
    rw [List.filterMap_append]
  rw [extractFrames_eq buffer (s ++ t), extractFrames_eq buffer s, extractFrames_eq _ t]
  have hb1 : ('\r' : Char) ∉ (pySplit '\r' (buffer ++ cleanRaw s)).getLastD [] :=
    pySplit_getLastD_no_sep '\r' (buffer ++ cleanRaw s)
  have h1 : buffer ++ cleanRaw (s ++ t) = (buffer ++ cleanRaw s) ++ cleanRaw t := by
    rw [hclean, List.append_assoc]
  rw [h1, pySplit_append '\r' (cleanRaw t) (buffer ++ cleanRaw s),
    pySplit_append '\r' (cleanRaw t) ((pySplit '\r' (buffer ++ cleanRaw s)).getLastD []),
    pySplit_no_sep '\r' _ hb1]
  simp only [List.dropLast_single, List.getLastD_cons, List.getLastD_nil, List.nil_append]
  rw [dropLast_append_cons, List.flatMap_append, getLastD_append_cons, List.getLastD_cons]

/-- C6: CONFIRMED.  The framer is chunking-invariant: starting from an
empty buffer, feeding a character sequence through `_extract_frames` in
one call or split arbitrarily into any list of partial calls yields the
same concatenated sequence of extracted frames and the same final buffer.
(The raw bytes are decoded with the single-byte Windows-1252 codec before
reaching `_extract_frames`, so splitting a byte sequence is splitting the
decoded character sequence.) -/
theorem extract_frames_chunking_invariant (chunks : List (List Char)) :
    extractFramesAll [] chunks = extractFrames [] chunks.flatten := by
  suffices h : ∀ (buffer : List Char), ('\r' : Char) ∉ buffer →
      ∀ chs : List (List Char),
        extractFramesAll buffer chs = extractFrames buffer chs.flatten by
    exact h [] (by simp) chunks
  intro buffer hbuf chs
  induction chs generalizing buffer with
  | nil =>
    unfold extractFramesAll extractFrames cleanRaw
    simp [hbuf]
  | cons c rest ih =>
    unfold extractFramesAll
    simp only []
    rw [ih _ (extractFrames_snd_no_cr buffer c)]
    rw [show (c :: rest).flatten = c ++ rest.flatten from rfl]
    rw [extractFrames_append buffer c rest.flatten]

/-! ## C4: validator classification -/

/-- C4: CONFIRMED.  `validate_crc` is total — the only raising operation
inside its `try` is the length-field parse, modelled by the `Option`
result of `pyIntHex`, so every input yields `true` or `false`, never an
exception.  For a message containing exactly one `$`: the five-character
`$05xx` shape is accepted with no CRC computation; any other message is
accepted iff the two-digit length field parses, the character count
equals the parsed value minus one, and the recomputed CRC-8 over all but
the trailing two characters equals those two characters after uppercasing
both sides (case-insensitive comparison). -/
theorem validate_crc_spec (message : List Char) (hcount : message.count '$' = 1) :
    ((message.length = 5 ∧ ['$', '0', '5'].isPrefixOf message = true) →
      validate_crc message = true) ∧
    (¬(message.length = 5 ∧ ['$', '0', '5'].isPrefixOf message = true) →
      (validate_crc message = true ↔
        ∃ v : Int, pyIntHex ((message.drop 1).take 2) = some v ∧
          (message.length : Int) = v - 1 ∧
          (int_to_hex (calc_crc2 (message.take (message.length - 2))) 2).map Char.toUpper =
            (message.drop (message.length - 2)).map Char.toUpper)) := by
  rw [validate_crc_eq_core message (by omega)]
  unfold validateCore
  refine ⟨fun hack => ?_, fun hnot => ?_⟩
  · simp [hack.1, hack.2]
  · have h1 : (decide (message.length = 5) && ['$', '0', '5'].isPrefixOf message) = false := by
      rcases Decidable.em (message.length = 5) with h5 | h5
      · have hp : ¬['$', '0', '5'].isPrefixOf message = true := fun hp => hnot ⟨h5, hp⟩
        simp [hp]
      · simp [h5]
    simp only [h1, Bool.false_eq_true, if_false]
    cases hp : pyIntHex ((message.drop 1).take 2) with
    | none => simp
    | some v =>
      by_cases hlen : (message.length : Int) = v - 1
      · simp [hlen]
      · simp [hlen]

set_option maxRecDepth 10000 in
/-- C4 witness: the classification applied to the valid handshake answer
frame `$10110000B8CF9D` (length field 0x10, fifteen characters, CRC-8
`9D` matching) and, through the acknowledgment direction, to `$051C`. -/
theorem validate_crc_spec_witness :
    validate_crc ("$10110000B8CF9D".toList) = true ∧
    validate_crc ("$051C".toList) = true :=
  ⟨((validate_crc_spec ("$10110000B8CF9D".toList) (by decide)).2 (by decide)).mpr
      ⟨16, by decide, by decide, by decide⟩,
    (validate_crc_spec ("$051C".toList) (by decide)).1 ⟨by decide, by decide⟩⟩

/-! ## C8: single-bit flips of the CRC digits -/

/-- Flipping bit `b` of a character code. -/
def flipBit (c : Char) (b : Nat) : Char :=
  Char.ofNat (c.toNat ^^^ (1 <<< b))

theorem isHex_mem_chars (c : Char) (hc : isHexDigitChar c = true) :
    c ∈ ['A', 'B', 'C', 'D', 'E', 'F', 'a', 'b', 'c', 'd', 'e', 'f',
         '9', '8', '7', '6', '5', '4', '3', '2', '1', '0'] := by
  unfold isHexDigitChar at hc
  simp only [Bool.or_eq_true, Bool.and_eq_true, decide_eq_true_eq] at hc
  have hvals : c.toNat = 48 ∨ c.toNat = 49 ∨ c.toNat = 50 ∨ c.toNat = 51 ∨
      c.toNat = 52 ∨ c.toNat = 53 ∨ c.toNat = 54 ∨ c.toNat = 55 ∨ c.toNat = 56 ∨
      c.toNat = 57 ∨ c.toNat = 97 ∨ c.toNat = 98 ∨ c.toNat = 99 ∨ c.toNat = 100 ∨
      c.toNat = 101 ∨ c.toNat = 102 ∨ c.toNat = 65 ∨ c.toNat = 66 ∨ c.toNat = 67 ∨
      c.toNat = 68 ∨ c.toNat = 69 ∨ c.toNat = 70 := by omega
  rcases hvals with h | h | h | h | h | h | h | h | h | h | h | h | h | h | h | h | h | h | h | h | h | h <;>
    (rw [← Char.ofNat_toNat c, h]; decide)

theorem toUpper_hex_facts (c : Char) (hc : isHexDigitChar c = true) :
    hexDigitVal (Char.toUpper c) = hexDigitVal c ∧
    isHexDigitChar (Char.toUpper c) = true ∧
    Char.toUpper c ≠ '$' := by
  have hm := isHex_mem_chars c hc
  simp only [List.mem_cons, List.not_mem_nil, or_false] at hm
  rcases hm with rfl | rfl | rfl | rfl | rfl | rfl | rfl | rfl | rfl | rfl | rfl | rfl | rfl | rfl | rfl | rfl | rfl | rfl | rfl | rfl | rfl | rfl <;>
    exact ⟨by decide, by decide, by decide⟩

theorem hexDigitVal_lt_16 (c : Char) (hc : isHexDigitChar c = true) :
    hexDigitVal c < 16 := by
  have hm := isHex_mem_chars c hc
  simp only [List.mem_cons, List.not_mem_nil, or_false] at hm
  rcases hm with rfl | rfl | rfl | rfl | rfl | rfl | rfl | rfl | rfl | rfl | rfl | rfl | rfl | rfl | rfl | rfl | rfl | rfl | rfl | rfl | rfl | rfl <;>
    decide

theorem int_to_hex2_digits (v : Nat) (hv : v ≤ 255) :
    int_to_hex v 2 = [hexDigitChar (v / 16), hexDigitChar (v % 16)] := by
  by_cases h0 : v = 0
  · subst h0
    decide
  · by_cases h16 : v < 16
    · have hd : v / 16 = 0 := Nat.div_eq_of_lt h16
      have hm : v % 16 = v := Nat.mod_eq_of_lt h16
      have hrev : natToHexRev v = [hexDigitChar v] := by
        rw [natToHexRev_eq]
        simp only [h0, if_false, hm]
        rw [natToHexRev_eq]
        simp [hd]
      unfold int_to_hex natToHex
      simp [h0, hrev, hd, hm, hexDigitChar]
    · have hd1 : v / 16 < 16 := by omega
      have hd0 : v / 16 ≠ 0 := by
        intro h
        have := Nat.div_add_mod v 16
        have := Nat.mod_lt v (show 0 < 16 by norm_num)
        omega
      have hrev : natToHexRev v = [hexDigitChar (v % 16), hexDigitChar (v / 16)] := by
        rw [natToHexRev_eq]
        simp only [h0, if_false]
        rw [natToHexRev_eq]
        simp only [hd0, if_false]
        rw [natToHexRev_eq]
        simp [Nat.div_eq_of_lt hd1, Nat.mod_eq_of_lt hd1]
      unfold int_to_hex natToHex
      simp [h0, hrev]

theorem count_eq_zero_of_not_mem_dollar (t : List Char) (h : '$' ∉ t) :
    t.count '$' = 0 :=
  List.count_eq_zero.mpr h

theorem count_set_dollar (t : List Char) :
    ∀ j, j < t.length → '$' ∉ t → (t.set j '$').count '$' = 1 := by
  induction t with
  | nil => intro j hj _; simp at hj
  | cons c rest ih =>
    intro j hj hno
    have hcne : ¬c = '$' := fun h => hno (by simp [h])
    have hrest : '$' ∉ rest := fun h => hno (by simp [h])
    cases j with
    | zero =>
      simp only [List.set_cons_zero, List.count_cons]
      rw [count_eq_zero_of_not_mem_dollar rest hrest]
      simp
    | succ j =>
      simp only [List.set_cons_succ, List.count_cons]
      rw [ih j (by simpa using hj) hrest]
      simp [hcne]

theorem indexOf_set_dollar (t : List Char) :
    ∀ j, j < t.length → '$' ∉ t → (t.set j '$').indexOf '$' = j := by
  induction t with
  | nil => intro j hj _; simp at hj
  | cons c rest ih =>
    intro j hj hno
    have hcne : c ≠ '$' := fun h => hno (by simp [h])
    have hrest : '$' ∉ rest := fun h => hno (by simp [h])
    cases j with
    | zero =>
      simp [List.set_cons_zero, List.indexOf_cons_self]
    | succ j =>
      simp only [List.set_cons_succ]
      rw [List.indexOf_cons_ne _ hcne, ih j (by simpa using hj) hrest]

theorem drop_set_eq_cons (t : List Char) (j : Nat) (x : Char) (hj : j < t.length) :
    (t.set j x).drop j = x :: t.drop (j + 1) := by
  rw [List.drop_set]
  simp only [lt_irrefl, if_false, Nat.sub_self]
  rw [List.drop_eq_getElem_cons hj]
  rfl

set_option maxRecDepth 2000 in
theorem validate_crc_dollar_single : validate_crc ['$'] = false := by
  rw [validate_crc_eq_core _ (by decide)]
  decide

theorem validateCore_dollar_pair (x : Char) : validateCore ['$', x] = false := by
  unfold validateCore
  simp only [List.length_cons, List.length_nil]
  rw [show decide (0 + 1 + 1 = 5) = false from rfl, Bool.false_and]
  simp only [Bool.false_eq_true, if_false]
  have hslice : (List.take 2 (List.drop 1 (['$', x] : List Char))) = [x] := rfl
  rw [hslice]
  cases hp : pyIntHex ([x] : List Char) with
  | none => rfl
  | some v =>
    dsimp only
    by_cases hl : ((0 + 1 + 1 : Nat) : Int) ≠ v - 1
    · rw [if_pos hl]
    · rw [if_neg hl]
      apply decide_eq_false
      intro heq
      have htake : List.take (0 + 1 + 1 - 2) (['$', x] : List Char) = [] := rfl
      have hdrop : List.drop (0 + 1 + 1 - 2) (['$', x] : List Char) = ['$', x] := rfl
      rw [htake, hdrop] at heq
      have h00 : (int_to_hex (calc_crc2 ([] : List Char)) 2).map Char.toUpper =
          ['0', '0'] := by decide
      rw [h00] at heq
      simp only [List.map] at heq
      injection heq with h1 h2
      exact absurd h1 (by decide)

theorem validate_crc_dollar_pair (x : Char) : validate_crc ['$', x] = false := by
  by_cases hx : x = '$'
  · subst hx
    have hc : (['$', '$'] : List Char).count '$' > 1 := by decide
    rw [validate_crc_rec _ hc]
    have hpos : secondDollarPos ['$', '$'] = 1 := by decide
    rw [hpos]
    exact validate_crc_dollar_single
  · rw [validate_crc_eq_core _ (by simp [List.count_cons, hx])]
    exact validateCore_dollar_pair x

theorem isHex_extra_facts (c : Char) (hc : isHexDigitChar c = true) :
    pyIsWs c = false ∧ c ≠ '+' ∧ c ≠ '-' ∧ c ≠ '$' := by
  have hm := isHex_mem_chars c hc
  simp only [List.mem_cons, List.not_mem_nil, or_false] at hm
  rcases hm with rfl | rfl | rfl | rfl | rfl | rfl | rfl | rfl | rfl | rfl | rfl | rfl | rfl | rfl | rfl | rfl | rfl | rfl | rfl | rfl | rfl | rfl <;>
    exact ⟨by decide, by decide, by decide, by decide⟩

theorem hex_char_of_val (c : Char) (hc : isHexDigitChar c = true) (n : Nat)
    (hn : n < 10) (h : hexDigitVal c = n) : c = hexDigitChar n := by
  have hm := isHex_mem_chars c hc
  simp only [List.mem_cons, List.not_mem_nil, or_false] at hm
  rcases hm with rfl | rfl | rfl | rfl | rfl | rfl | rfl | rfl | rfl | rfl | rfl | rfl | rfl | rfl | rfl | rfl | rfl | rfl | rfl | rfl | rfl | rfl <;>
    (subst h; revert hn; decide)

theorem dropWhile_eq_self_of_not_ws (l : List Char)
    (h : ∀ c ∈ l, pyIsWs c = false) : l.dropWhile pyIsWs = l := by
  cases l with
  | nil => rfl
  | cons c rest =>
    rw [List.dropWhile_cons]
    simp [h c (by simp)]

theorem pyStrip_all_hex (l : List Char) (hl : l.all isHexDigitChar = true) :
    pyStrip l = l := by
  have hws : ∀ c ∈ l, pyIsWs c = false := fun c hc =>
    (isHex_extra_facts c (List.all_eq_true.mp hl c hc)).1
  unfold pyStrip
  rw [dropWhile_eq_self_of_not_ws l hws,
    dropWhile_eq_self_of_not_ws l.reverse (fun c hc => hws c (List.mem_reverse.mp hc)),
    List.reverse_reverse]

theorem pyIntHex_all_hex (l : List Char) (hl : l.all isHexDigitChar = true)
    (hne : l ≠ []) : pyIntHex l = some (hexListVal l) := by
  unfold pyIntHex
  rw [pyStrip_all_hex l hl]
  cases l with
  | nil => exact absurd rfl hne
  | cons c rest =>
    have hc := List.all_eq_true.mp hl c (by simp)
    obtain ⟨-, hplus, hminus, -⟩ := isHex_extra_facts c hc
    simp only [hplus, hminus, if_false, hl, Bool.and_self]
    simp [hl]

theorem hexListVal_single (a : Char) : hexListVal [a] = hexDigitVal a := by
  unfold hexListVal
  simp [List.foldl]

theorem hexListVal_pair (a b : Char) :
    hexListVal [a, b] = 16 * hexDigitVal a + hexDigitVal b := by
  unfold hexListVal
  simp [List.foldl]

theorem validateCore_chr (u : List Char)
    (hguard : (decide (u.length = 5) && ['$', '0', '5'].isPrefixOf u) = false) :
    validateCore u =
      match pyIntHex ((u.drop 1).take 2) with
      | none => false
      | some v =>
        if (u.length : Int) ≠ v - 1 then false
        else decide ((int_to_hex (calc_crc2 (u.take (u.length - 2))) 2).map Char.toUpper =
          (u.drop (u.length - 2)).map Char.toUpper) := by
  unfold validateCore
  rw [hguard]
  simp only [Bool.false_eq_true, if_false]

theorem guard_false_of_notack (u : List Char)
    (hnotack : ¬(u.length = 5 ∧ ['$', '0', '5'].isPrefixOf u = true)) :
    (decide (u.length = 5) && ['$', '0', '5'].isPrefixOf u) = false := by
  rcases Decidable.em (u.length = 5) with h5 | h5
  · have hp : ¬['$', '0', '5'].isPrefixOf u = true := fun hp => hnotack ⟨h5, hp⟩
    simp [hp]
  · simp [h5]

theorem valid_frame_analysis (t : List Char)
    (hhex : t.all isHexDigitChar = true)
    (hnotack : ¬(('$' :: t : List Char).length = 5 ∧
      ['$', '0', '5'].isPrefixOf ('$' :: t) = true))
    (hvalid : validate_crc ('$' :: t) = true) :
    4 ≤ t.length ∧
    ∃ v : Int,
      pyIntHex (t.take 2) = some v ∧
      ((t.length + 1 : Nat) : Int) = v - 1 ∧
      (int_to_hex (calc_crc2 (('$' :: t).take (t.length + 1 - 2))) 2).map Char.toUpper =
        (('$' :: t).drop (t.length + 1 - 2)).map Char.toUpper := by
  have hno : '$' ∉ t := by
    intro hmem
    exact absurd (List.all_eq_true.mp hhex '$' hmem) (by decide)
  have hcount : ('$' :: t).count '$' ≤ 1 := by
    simp [List.count_cons, count_eq_zero_of_not_mem_dollar t hno]
  rw [validate_crc_eq_core _ hcount,
    validateCore_chr _ (guard_false_of_notack _ hnotack)] at hvalid
  rw [show ((('$' :: t) : List Char).drop 1).take 2 = t.take 2 from rfl] at hvalid
  simp only [List.length_cons] at hvalid
  cases hpv : pyIntHex (t.take 2) with
  | none =>
    rw [hpv] at hvalid
    exact absurd hvalid (by simp)
  | some v =>
    rw [hpv] at hvalid
    dsimp only at hvalid
    by_cases hlen : ((t.length + 1 : Nat) : Int) ≠ v - 1
    · rw [if_pos hlen] at hvalid
      exact absurd hvalid (by simp)
    · rw [if_neg hlen] at hvalid
      push_neg at hlen
      have hmaps := of_decide_eq_true hvalid
      refine ⟨?_, v, rfl, hlen, hmaps⟩
      rcases t with - | ⟨c0, t1⟩
      · rw [show pyIntHex (List.take 2 ([] : List Char)) = none from rfl] at hpv
        exact absurd hpv (by simp)
      rcases t1 with - | ⟨c1, t2⟩
      · -- t = [c0]: two-character frame, CRC comparison fails on the head
        rw [show (List.take ([c0].length + 1 - 2) (['$', c0] : List Char)) = [] from rfl]
          at hmaps
        have h00 : (int_to_hex (calc_crc2 ([] : List Char)) 2).map Char.toUpper =
            ['0', '0'] := by decide
        rw [h00] at hmaps
        rw [show (('$' :: [c0] : List Char).drop ([c0].length + 1 - 2)) = ['$', c0]
          from rfl] at hmaps
        simp only [List.map] at hmaps
        injection hmaps with h1 h2
        exact absurd h1 (by decide)
      rcases t2 with - | ⟨c2, t3⟩
      · -- t = [c0, c1]: three-character frame
        have hhex0 : isHexDigitChar c0 = true := List.all_eq_true.mp hhex c0 (by simp)
        have hhex1 : isHexDigitChar c1 = true := List.all_eq_true.mp hhex c1 (by simp)
        have hparse : pyIntHex ([c0, c1].take 2) = some (16 * hexDigitVal c0 + hexDigitVal c1) := by
          rw [show ([c0, c1].take 2) = [c0, c1] from rfl,
            pyIntHex_all_hex [c0, c1] (by simp [hhex0, hhex1]) (by simp), hexListVal_pair]
        rw [hparse] at hpv
        have hv : v = (16 * hexDigitVal c0 + hexDigitVal c1 : Nat) := by
          exact_mod_cast (Option.some.inj hpv).symm
        rw [show (List.take ([c0, c1].length + 1 - 2) (['$', c0, c1] : List Char)) = ['$']
          from rfl] at hmaps
        have hD3 : (int_to_hex (calc_crc2 (['$'] : List Char)) 2).map Char.toUpper =
            ['D', '3'] := by decide
        rw [hD3] at hmaps
        rw [show (('$' :: [c0, c1] : List Char).drop ([c0, c1].length + 1 - 2)) = [c0, c1]
          from rfl] at hmaps
        simp only [List.map] at hmaps
        injection hmaps with h1 h2
        have hval0 : hexDigitVal c0 = 13 := by
          rw [(toUpper_hex_facts c0 hhex0).1.symm, ← h1]
          decide
        have hb1 := hexDigitVal_lt_16 c1 hhex1
        simp only [List.length_cons, List.length_nil] at hlen
        omega
      rcases t3 with - | ⟨c3, t4⟩
      · -- t = [c0, c1, c2]: four-character frame
        have hhex0 : isHexDigitChar c0 = true := List.all_eq_true.mp hhex c0 (by simp)
        have hhex1 : isHexDigitChar c1 = true := List.all_eq_true.mp hhex c1 (by simp)
        have hparse : pyIntHex ([c0, c1, c2].take 2) =
            some (16 * hexDigitVal c0 + hexDigitVal c1) := by
          rw [show ([c0, c1, c2].take 2) = [c0, c1] from rfl,
            pyIntHex_all_hex [c0, c1] (by simp [hhex0, hhex1]) (by simp), hexListVal_pair]
        rw [hparse] at hpv
        have hv : v = (16 * hexDigitVal c0 + hexDigitVal c1 : Nat) := by
          exact_mod_cast (Option.some.inj hpv).symm
        have hb0 := hexDigitVal_lt_16 c0 hhex0
        have hb1 := hexDigitVal_lt_16 c1 hhex1
        have hval0 : hexDigitVal c0 = 0 ∧ hexDigitVal c1 = 5 := by
          rw [hv] at hlen
          simp only [List.length_cons, List.length_nil] at hlen
          constructor <;> omega
        have hc0 : c0 = '0' := hex_char_of_val c0 hhex0 0 (by norm_num) hval0.1
        have hc1 : c1 = '5' := hex_char_of_val c1 hhex1 5 (by norm_num) hval0.2
        subst hc0
        subst hc1
        rw [show (List.take (['0', '5', c2].length + 1 - 2) (['$', '0', '5', c2] : List Char)) =
          ['$', '0'] from rfl] at hmaps
        have h66 : (int_to_hex (calc_crc2 (['$', '0'] : List Char)) 2).map Char.toUpper =
            ['6', '6'] := by decide
        rw [h66] at hmaps
        rw [show (('$' :: ['0', '5', c2] : List Char).drop (['0', '5', c2].length + 1 - 2)) =
          ['5', c2] from rfl] at hmaps
        simp only [List.map] at hmaps
        injection hmaps with h1 h2
        exact absurd h1 (by decide)
      · simp

theorem prefix105_congr (u w : List Char) (h : u.take 3 = w.take 3) :
    (['$', '0', '5'].isPrefixOf u) = (['$', '0', '5'].isPrefixOf w) := by
  rw [Bool.eq_iff_iff, List.isPrefixOf_iff_prefix, List.isPrefixOf_iff_prefix,
    List.prefix_iff_eq_take, List.prefix_iff_eq_take]
  rw [show (['$', '0', '5'] : List Char).length = 3 from rfl, h]

/-- C8: CORRECTED (amended behaviour proved).  For a data frame (per the
wire grammar: `$` followed by hex digits) that `validate_crc` accepts via
the CRC path, flipping a single bit `b` of a character at one of the two
trailing CRC-8 digit positions yields a frame that `validate_crc`
rejects whenever the flip changes the uppercased character — but when the
flip only changes letter case (bit 5 of a letter digit, so the uppercased
character is unchanged), the frame is still accepted, because the CRC
comparison is case-insensitive; the claim's unconditional rejection is
therefore false. -/
theorem validate_crc_crc_digit_flip (t : List Char)
    (hhex : t.all isHexDigitChar = true)
    (hnotack : ¬(('$' :: t : List Char).length = 5 ∧
      ['$', '0', '5'].isPrefixOf ('$' :: t) = true))
    (hvalid : validate_crc ('$' :: t) = true)
    (i b : Nat)
    (hi : i = ('$' :: t : List Char).length - 2 ∨ i = ('$' :: t : List Char).length - 1)
    (hb : b < 8) :
    (Char.toUpper (flipBit (('$' :: t : List Char).getD i ' ') b) ≠
        Char.toUpper (('$' :: t : List Char).getD i ' ') →
      validate_crc (('$' :: t).set i (flipBit (('$' :: t : List Char).getD i ' ') b)) =
        false) ∧
    (Char.toUpper (flipBit (('$' :: t : List Char).getD i ' ') b) =
        Char.toUpper (('$' :: t : List Char).getD i ' ') →
      validate_crc (('$' :: t).set i (flipBit (('$' :: t : List Char).getD i ' ') b)) =
        true) := by
  obtain ⟨hlen4, v, hpv, hlenv, hmaps⟩ := valid_frame_analysis t hhex hnotack hvalid
  have hno : '$' ∉ t := by
    intro hmem
    exact absurd (List.all_eq_true.mp hhex '$' hmem) (by decide)
  have hi2 : i = t.length - 1 ∨ i = t.length := by
    simp only [List.length_cons] at hi
    omega
  have hi3 : 3 ≤ i := by omega
  have hjlt : i - 1 < t.length := by omega
  set cc := (('$' :: t : List Char)).getD i ' ' with hcc
  set c2 := flipBit cc b with hc2def
  have hij : i = (i - 1) + 1 := by omega
  have hcget : cc = t.getD (i - 1) ' ' := by
    rw [hcc, hij]
    simp [List.getD_cons_succ]
  have hcelem : cc = t[i - 1] := by
    rw [hcget]
    exact List.getD_eq_getElem t ' ' hjlt
  have hchex : isHexDigitChar cc = true := by
    rw [hcelem]
    exact List.all_eq_true.mp hhex _ (List.getElem_mem hjlt)
  have hset : ('$' :: t).set i c2 = '$' :: t.set (i - 1) c2 := by
    rw [hij]
    rfl
  -- the two-character tail of the accepted frame
  have hexplen : (t.drop (t.length - 2)).length = 2 := by
    simp only [List.length_drop]
    omega
  obtain ⟨e0, e1, he⟩ := List.length_eq_two.mp hexplen
  have hdropm : (('$' :: t : List Char)).drop (t.length + 1 - 2) = t.drop (t.length - 2) := by
    rw [show t.length + 1 - 2 = (t.length - 2) + 1 from by omega]
    rfl
  rw [hdropm, he] at hmaps
  -- relate cc to e0/e1
  have hge : ∀ k : Nat, (hk : k < 2) → i - 1 = (t.length - 2) + k →
      cc = [e0, e1].getD k ' ' := by
    intro k hk hik
    have hk2 : k < (t.drop (t.length - 2)).length := by
      rw [hexplen]
      omega
    have hk3 : t.length - 2 + k < t.length := by omega
    have h1 : (t.drop (t.length - 2))[k] = t[t.length - 2 + k] := List.getElem_drop _
    rw [hcelem]
    rw [← he, List.getD_eq_getElem _ _ (by rw [hexplen]; omega), h1]
    simp only [hik]
  constructor
  · -- rejection: the flip changes the uppercased character
    intro hne
    rw [hset]
    by_cases hdol : c2 = '$'
    · -- flipped character became a second dollar: recursion chops to a stub
      rw [hdol]
      have hcnt : ('$' :: t.set (i - 1) '$').count '$' > 1 := by
        simp only [List.count_cons, count_set_dollar t (i - 1) hjlt hno]
        simp
      rw [validate_crc_rec _ hcnt]
      have hmem2 : '$' ∈ ('$' :: t.set (i - 1) '$').drop 1 := by
        simp only [List.drop_succ_cons, List.drop_zero]
        apply List.mem_of_mem_drop (n := i - 1)
        rw [drop_set_eq_cons t (i - 1) '$' hjlt]
        simp
      have hpos : secondDollarPos ('$' :: t.set (i - 1) '$') = 1 + (i - 1) := by
        unfold secondDollarPos
        rw [if_pos hmem2]
        simp only [List.drop_succ_cons, List.drop_zero]
        rw [indexOf_set_dollar t (i - 1) hjlt hno]
      rw [hpos]
      rw [show 1 + (i - 1) = (i - 1) + 1 from by omega]
      simp only [List.drop_succ_cons]
      rw [drop_set_eq_cons t (i - 1) '$' hjlt]
      rcases hi2 with hcase | hcase
      · -- flip at the first CRC digit: stub is ['$', last]
        have hlast : (t.drop (i - 1 + 1)).length = 1 := by
          simp only [List.length_drop]
          omega
        obtain ⟨y, hy⟩ := List.length_eq_one.mp hlast
        rw [hy]
        exact validate_crc_dollar_pair y
      · -- flip at the last CRC digit: stub is ['$']
        rw [List.drop_eq_nil_of_le (by omega)]
        exact validate_crc_dollar_single
    · -- still exactly one dollar: the CRC comparison now fails
      have hnomem : '$' ∉ t.set (i - 1) c2 := by
        intro hm
        rcases List.mem_or_eq_of_mem_set hm with h | h
        · exact hno h
        · exact hdol h.symm
      rw [validate_crc_eq_core _ (by
        simp [List.count_cons, count_eq_zero_of_not_mem_dollar _ hnomem])]
      have hulen : ('$' :: t.set (i - 1) c2).length = t.length + 1 := by
        simp [List.length_set]
      have htake3 : ('$' :: t.set (i - 1) c2).take 3 = (('$' :: t : List Char)).take 3 := by
        rw [show (3 : Nat) = 2 + 1 from rfl, List.take_succ_cons, List.take_succ_cons,
          List.set_take]
        rw [List.set_eq_of_length_le (le_trans (List.length_take_le _ _) (by omega))]
      have hguard2 : (decide (('$' :: t.set (i - 1) c2).length = 5) &&
          ['$', '0', '5'].isPrefixOf ('$' :: t.set (i - 1) c2)) = false := by
        apply guard_false_of_notack
        intro ⟨h5, hp⟩
        apply hnotack
        constructor
        · rw [hulen] at h5
          simpa using h5
        · rw [← prefix105_congr _ _ htake3]
          exact hp
      rw [validateCore_chr _ hguard2]
      have hslice : ((('$' :: t.set (i - 1) c2) : List Char).drop 1).take 2 = t.take 2 := by
        simp only [List.drop_succ_cons, List.drop_zero]
        rw [List.set_take, List.set_eq_of_length_le
          (le_trans (List.length_take_le _ _) (by omega))]
      rw [hslice, hpv]
      dsimp only
      rw [if_neg (by
        rw [hulen]
        exact not_not_intro hlenv)]
      have htakeu : ('$' :: t.set (i - 1) c2).take (('$' :: t.set (i - 1) c2).length - 2) =
          (('$' :: t : List Char)).take (t.length + 1 - 2) := by
        rw [hulen, show t.length + 1 - 2 = (t.length - 2) + 1 from by omega,
          List.take_succ_cons, List.take_succ_cons, List.set_take]
        rw [List.set_eq_of_length_le (le_trans (List.length_take_le _ _) (by omega))]
      have hdropu : ('$' :: t.set (i - 1) c2).drop (('$' :: t.set (i - 1) c2).length - 2) =
          (t.drop (t.length - 2)).set ((i - 1) - (t.length - 2)) c2 := by
        rw [hulen, show t.length + 1 - 2 = (t.length - 2) + 1 from by omega]
        simp only [List.drop_succ_cons]
        rw [List.drop_set, if_neg (by omega)]
      rw [htakeu, hdropu, he]
      apply decide_eq_false
      intro heq
      rw [hmaps] at heq
      rcases hi2 with hcase | hcase
      · have hk0 : i - 1 - (t.length - 2) = 0 := by omega
        have hc0 : cc = e0 := by
          simpa using hge 0 (by omega) (by omega)
        rw [hk0] at heq
        simp only [List.set_cons_zero, List.map] at heq
        injection heq with h1 h2
        exact hne (by rw [← hc0] at h1; exact h1.symm)
      · have hk1 : i - 1 - (t.length - 2) = 1 := by omega
        have hc1 : cc = e1 := by
          simpa using hge 1 (by omega) (by omega)
        rw [hk1] at heq
        simp only [List.set_cons_succ, List.set_cons_zero, List.map] at heq
        injection heq with h1 h2
        injection h2 with h2 h3
        exact hne (by rw [← hc1] at h2; exact h2.symm)
  · -- acceptance: a case-only flip leaves the frame accepted
    intro hupeq
    rw [hset]
    have hdol : c2 ≠ '$' := by
      intro h
      rw [h] at hupeq
      exact absurd (hupeq.symm.trans (show Char.toUpper '$' = '$' from rfl))
        (toUpper_hex_facts cc hchex).2.2
    have hnomem : '$' ∉ t.set (i - 1) c2 := by
      intro hm
      rcases List.mem_or_eq_of_mem_set hm with h | h
      · exact hno h
      · exact hdol h.symm
    rw [validate_crc_eq_core _ (by
      simp [List.count_cons, count_eq_zero_of_not_mem_dollar _ hnomem])]
    have hulen : ('$' :: t.set (i - 1) c2).length = t.length + 1 := by
      simp [List.length_set]
    have htake3 : ('$' :: t.set (i - 1) c2).take 3 = (('$' :: t : List Char)).take 3 := by
      rw [show (3 : Nat) = 2 + 1 from rfl, List.take_succ_cons, List.take_succ_cons,
        List.set_take]
      rw [List.set_eq_of_length_le (le_trans (List.length_take_le _ _) (by omega))]
    have hguard2 : (decide (('$' :: t.set (i - 1) c2).length = 5) &&
        ['$', '0', '5'].isPrefixOf ('$' :: t.set (i - 1) c2)) = false := by
      apply guard_false_of_notack
      intro ⟨h5, hp⟩
      apply hnotack
      constructor
      · rw [hulen] at h5
        simpa using h5
      · rw [← prefix105_congr _ _ htake3]
        exact hp
    rw [validateCore_chr _ hguard2]
    have hslice : ((('$' :: t.set (i - 1) c2) : List Char).drop 1).take 2 = t.take 2 := by
      simp only [List.drop_succ_cons, List.drop_zero]
      rw [List.set_take, List.set_eq_of_length_le
        (le_trans (List.length_take_le _ _) (by omega))]
    rw [hslice, hpv]
    dsimp only
    rw [if_neg (by
      rw [hulen]
      exact not_not_intro hlenv)]
    have htakeu : ('$' :: t.set (i - 1) c2).take (('$' :: t.set (i - 1) c2).length - 2) =
        (('$' :: t : List Char)).take (t.length + 1 - 2) := by
      rw [hulen, show t.length + 1 - 2 = (t.length - 2) + 1 from by omega,
        List.take_succ_cons, List.take_succ_cons, List.set_take]
      rw [List.set_eq_of_length_le (le_trans (List.length_take_le _ _) (by omega))]
    have hdropu : ('$' :: t.set (i - 1) c2).drop (('$' :: t.set (i - 1) c2).length - 2) =
        (t.drop (t.length - 2)).set ((i - 1) - (t.length - 2)) c2 := by
      rw [hulen, show t.length + 1 - 2 = (t.length - 2) + 1 from by omega]
      simp only [List.drop_succ_cons]
      rw [List.drop_set, if_neg (by omega)]
    rw [htakeu, hdropu, he]
    apply decide_eq_true
    rw [hmaps]
    rcases hi2 with hcase | hcase
    · have hk0 : i - 1 - (t.length - 2) = 0 := by omega
      have hc0 : cc = e0 := by
        simpa using hge 0 (by omega) (by omega)
      rw [hk0]
      simp only [List.set_cons_zero, List.map]
      rw [← hc0, hupeq]
    · have hk1 : i - 1 - (t.length - 2) = 1 := by omega
      have hc1 : cc = e1 := by
        simpa using hge 1 (by omega) (by omega)
      rw [hk1]
      simp only [List.set_cons_succ, List.set_cons_zero, List.map]
      rw [← hc1, hupeq]

set_option maxRecDepth 10000 in
/-- C8 counterexample: `$10110000B8CF9D` is an accepted data frame; its
final CRC-8 digit `D` (0x44) differs from `d` (0x64) in exactly bit 5,
yet the case-flipped frame `$10110000B8CF9d` is still accepted, because
the CRC comparison uppercases both sides — refuting the claim that every
single-bit flip of a CRC digit is rejected. -/
theorem validate_crc_case_flip_accepted :
    validate_crc ("$10110000B8CF9D".toList) = true ∧
    ("$10110000B8CF9d".toList) =
      ("$10110000B8CF9D".toList).set 14
        (flipBit (("$10110000B8CF9D".toList).getD 14 ' ') 5) ∧
    validate_crc ("$10110000B8CF9d".toList) = true := by
  refine ⟨?_, by decide, ?_⟩
  · rw [validate_crc_eq_core _ (by decide)]
    decide
  · rw [validate_crc_eq_core _ (by decide)]
    decide

set_option maxRecDepth 10000 in
/-- C8 witness: on the accepted frame `$10110000B8CF9D`, flipping bit 5
of the final CRC digit (a case-only change) keeps the frame accepted,
while flipping bit 2 of the same digit (value-changing) gets it
rejected. -/
theorem validate_crc_crc_digit_flip_witness :
    validate_crc (('$' :: ("10110000B8CF9D".toList)).set 14
      (flipBit (('$' :: ("10110000B8CF9D".toList) : List Char).getD 14 ' ') 5)) = true ∧
    validate_crc (('$' :: ("10110000B8CF9D".toList)).set 14
      (flipBit (('$' :: ("10110000B8CF9D".toList) : List Char).getD 14 ' ') 2)) = false := by
  have hvalid : validate_crc ('$' :: ("10110000B8CF9D".toList)) = true := by
    rw [validate_crc_eq_core _ (by decide)]
    decide
  constructor
  · exact (validate_crc_crc_digit_flip ("10110000B8CF9D".toList) (by decide) (by decide)
      hvalid 14 5 (by decide) (by decide)).2 (by decide)
  · exact (validate_crc_crc_digit_flip ("10110000B8CF9D".toList) (by decide) (by decide)
      hvalid 14 2 (by decide) (by decide)).1 (by decide)
